import Mathlib

/-!
Verification of the peering_gossip aggregation-and-reporting pipeline
(`pgossip/pgossip.py`).  The Python code is shallowly embedded: each
relevant method becomes an executable Lean definition over explicit data
(dicts become association lists preserving insertion order, HTTP calls
become oracle parameters, raised exceptions become `Except` errors).
-/

namespace PGossip

/-- One neighbor entry of a route-server `neighbors` array:
`{"asn": ..., "routes_filtered": ...}`. -/
structure Neighbor where
  asn : Nat
  routes_filtered : Nat
deriving DecidableEq

/-- Python-dict upsert used by both accumulation loops: if the key is
present, add `fr` to its value in place; otherwise append a new entry
(`pgossip.py` lines 139-143 and 278-284). -/
def addRoute (acc : List (Nat × Nat)) (asn fr : Nat) : List (Nat × Nat) :=
  if acc.any (fun p => p.1 = asn) then
    acc.map (fun p => if p.1 = asn then (p.1, p.2 + fr) else p)
  else acc ++ [(asn, fr)]

/-- The per-response dictionary built by `alice_neighbours` (lines 278-284):
fold the neighbor entries into an insertion-ordered dict keyed by ASN. -/
def alice_neighbours_dict (entries : List Neighbor) : List (Nat × Nat) :=
  entries.foldl (fun d n => addRoute d n.asn n.routes_filtered) []

/-- The merge loop of `process_route_server` (lines 139-143): a `None`
fetch result contributes nothing, otherwise every (asn, froutes) pair of
the fetched dict is added into the shared accumulator. -/
def process_route_server (acc : List (Nat × Nat))
    (fetched : Option (List Neighbor)) : List (Nat × Nat) :=
  match fetched with
  | none => acc
  | some entries =>
      (alice_neighbours_dict entries).foldl (fun a p => addRoute a p.1 p.2) acc

/-- `alice_host`'s accumulation over all route servers of one exchange:
start from the empty dict and process each route server's fetch result. -/
def runAggregation (resps : List (Option (List Neighbor))) : List (Nat × Nat) :=
  resps.foldl process_route_server []

/-- Total recorded for `asn` in an accumulator (0 when absent). -/
def totalOf (asn : Nat) (acc : List (Nat × Nat)) : Nat :=
  ((acc.filter (fun p => p.1 = asn)).map Prod.snd).sum

/-- The ASNs present in an accumulator, in insertion order. -/
def keysOf (acc : List (Nat × Nat)) : List Nat :=
  acc.map Prod.fst

/-- Spec-side sum: the `routes_filtered` values that `entries` reports
for `asn`, summed. -/
def entriesSum (asn : Nat) (entries : List Neighbor) : Nat :=
  ((entries.filter (fun n => n.asn = asn)).map Neighbor.routes_filtered).sum

/-- Spec-side sum over a whole exchange run: the sum of `asn`'s
`routes_filtered` values over every route-server response that returned
data. -/
def responsesSum (asn : Nat) (resps : List (Option (List Neighbor))) : Nat :=
  ((resps.filterMap id).map (entriesSum asn)).sum

theorem totalOf_nil (asn : Nat) : totalOf asn [] = 0 := rfl

theorem totalOf_cons (asn : Nat) (p : Nat × Nat) (l : List (Nat × Nat)) :
    totalOf asn (p :: l) = (if p.1 = asn then p.2 else 0) + totalOf asn l := by
  by_cases hp : p.1 = asn <;> simp [totalOf, List.filter_cons, hp]

theorem any_key_iff (acc : List (Nat × Nat)) (a : Nat) :
    acc.any (fun p => p.1 = a) = true ↔ a ∈ keysOf acc := by
  simp only [keysOf, List.any_eq_true, decide_eq_true_eq, List.mem_map]

theorem map_addRoute_id (a fr : Nat) (l : List (Nat × Nat))
    (h : ∀ q ∈ l, q.1 ≠ a) :
    l.map (fun p => if p.1 = a then (p.1, p.2 + fr) else p) = l := by
  induction l with
  | nil => rfl
  | cons q rest ih =>
    have hq : q.1 ≠ a := h q (List.mem_cons_self q rest)
    simp only [List.map_cons, if_neg hq]
    rw [ih (fun r hr => h r (List.mem_cons_of_mem q hr))]

theorem addRoute_cons_ne (p : Nat × Nat) (rest : List (Nat × Nat))
    (a fr : Nat) (h : p.1 ≠ a) :
    addRoute (p :: rest) a fr = p :: addRoute rest a fr := by
  unfold addRoute
  have hany : (p :: rest).any (fun q => q.1 = a) = rest.any (fun q => q.1 = a) := by
    simp [List.any_cons, h]
  rw [hany]
  by_cases hrest : rest.any (fun q => q.1 = a)
  · simp [hrest, if_neg h]
  · simp [hrest]

theorem addRoute_cons_eq (p : Nat × Nat) (rest : List (Nat × Nat))
    (a fr : Nat) (h : p.1 = a) (hnot : a ∉ keysOf rest) :
    addRoute (p :: rest) a fr = (p.1, p.2 + fr) :: rest := by
  unfold addRoute
  have hany : (p :: rest).any (fun q => q.1 = a) = true := by
    simp [List.any_cons, h]
  rw [hany]
  simp only [if_true, List.map_cons, if_pos h]
  rw [map_addRoute_id a fr rest]
  intro q hq hqa
  exact hnot (by simpa [keysOf, hqa] using List.mem_map_of_mem Prod.fst hq)

theorem keysOf_addRoute_mem (acc : List (Nat × Nat)) (a fr : Nat)
    (h : a ∈ keysOf acc) :
    keysOf (addRoute acc a fr) = keysOf acc := by
  unfold addRoute
  rw [if_pos ((any_key_iff acc a).mpr h)]
  unfold keysOf
  rw [List.map_map]
  apply List.map_congr_left
  intro p _
  by_cases hp : p.1 = a <;> simp [hp]

theorem keysOf_addRoute_not_mem (acc : List (Nat × Nat)) (a fr : Nat)
    (h : a ∉ keysOf acc) :
    keysOf (addRoute acc a fr) = keysOf acc ++ [a] := by
  unfold addRoute
  rw [if_neg (fun hc => h ((any_key_iff acc a).mp hc))]
  simp [keysOf]

theorem mem_keysOf_addRoute (acc : List (Nat × Nat)) (a fr x : Nat) :
    x ∈ keysOf (addRoute acc a fr) ↔ x ∈ keysOf acc ∨ x = a := by
  by_cases h : a ∈ keysOf acc
  · rw [keysOf_addRoute_mem acc a fr h]
    constructor
    · exact Or.inl
    · rintro (hx | rfl)
      · exact hx
      · exact h
  · rw [keysOf_addRoute_not_mem acc a fr h]
    simp

theorem nodup_keysOf_addRoute (acc : List (Nat × Nat)) (a fr : Nat)
    (hnd : (keysOf acc).Nodup) : (keysOf (addRoute acc a fr)).Nodup := by
  by_cases h : a ∈ keysOf acc
  · rw [keysOf_addRoute_mem acc a fr h]; exact hnd
  · rw [keysOf_addRoute_not_mem acc a fr h]
    simp [List.nodup_append, hnd, h]

theorem totalOf_addRoute (asn : Nat) (acc : List (Nat × Nat)) (a fr : Nat)
    (hnd : (keysOf acc).Nodup) :
    totalOf asn (addRoute acc a fr) =
      totalOf asn acc + (if a = asn then fr else 0) := by
  induction acc with
  | nil =>
    have : addRoute [] a fr = [(a, fr)] := by simp [addRoute]
    rw [this, totalOf_cons, totalOf_nil]
    by_cases ha : a = asn <;> simp [ha]
  | cons p rest ih =>
    have hk : keysOf (p :: rest) = p.1 :: keysOf rest := rfl
    rw [hk] at hnd
    have hnd' : (keysOf rest).Nodup := (List.nodup_cons.mp hnd).2
    have hpnot : p.1 ∉ keysOf rest := (List.nodup_cons.mp hnd).1
    by_cases hpa : p.1 = a
    · rw [addRoute_cons_eq p rest a fr hpa (hpa ▸ hpnot)]
      rw [totalOf_cons, totalOf_cons]
      by_cases hasn : p.1 = asn
      · rw [if_pos hasn, if_pos hasn, if_pos (hpa ▸ hasn)]
        omega
      · rw [if_neg hasn, if_neg hasn, if_neg (fun hc => hasn (hpa.trans hc))]
        omega
    · rw [addRoute_cons_ne p rest a fr hpa]
      rw [totalOf_cons, totalOf_cons, ih hnd']
      omega

theorem totalOf_foldl_pairs (asn : Nat) (l : List (Nat × Nat))
    (acc : List (Nat × Nat)) (hnd : (keysOf acc).Nodup) :
    totalOf asn (l.foldl (fun a p => addRoute a p.1 p.2) acc) =
      totalOf asn acc + totalOf asn l := by
  induction l generalizing acc with
  | nil => simp [totalOf_nil]
  | cons p rest ih =>
    rw [List.foldl_cons, ih _ (nodup_keysOf_addRoute acc p.1 p.2 hnd),
      totalOf_addRoute asn acc p.1 p.2 hnd, totalOf_cons]
    omega

theorem totalOf_foldl_entries (asn : Nat) (entries : List Neighbor)
    (acc : List (Nat × Nat)) (hnd : (keysOf acc).Nodup) :
    totalOf asn (entries.foldl
        (fun d n => addRoute d n.asn n.routes_filtered) acc) =
      totalOf asn acc + entriesSum asn entries := by
  induction entries generalizing acc with
  | nil => simp [entriesSum]
  | cons n rest ih =>
    rw [List.foldl_cons, ih _ (nodup_keysOf_addRoute acc n.asn n.routes_filtered hnd),
      totalOf_addRoute asn acc n.asn n.routes_filtered hnd]
    have : entriesSum asn (n :: rest) =
        (if n.asn = asn then n.routes_filtered else 0) + entriesSum asn rest := by
      by_cases hn : n.asn = asn <;> simp [entriesSum, List.filter_cons, hn]
    rw [this]
    omega

theorem nodup_keysOf_foldl_pairs (l : List (Nat × Nat))
    (acc : List (Nat × Nat)) (hnd : (keysOf acc).Nodup) :
    (keysOf (l.foldl (fun a p => addRoute a p.1 p.2) acc)).Nodup := by
  induction l generalizing acc with
  | nil => exact hnd
  | cons p rest ih =>
    exact ih _ (nodup_keysOf_addRoute acc p.1 p.2 hnd)

theorem nodup_keysOf_foldl_entries (entries : List Neighbor)
    (acc : List (Nat × Nat)) (hnd : (keysOf acc).Nodup) :
    (keysOf (entries.foldl
        (fun d n => addRoute d n.asn n.routes_filtered) acc)).Nodup := by
  induction entries generalizing acc with
  | nil => exact hnd
  | cons n rest ih =>
    exact ih _ (nodup_keysOf_addRoute acc n.asn n.routes_filtered hnd)

theorem alice_neighbours_dict_total (asn : Nat) (entries : List Neighbor) :
    totalOf asn (alice_neighbours_dict entries) = entriesSum asn entries := by
  unfold alice_neighbours_dict
  rw [totalOf_foldl_entries asn entries [] (by simp [keysOf]), totalOf_nil]
  omega

theorem nodup_alice_neighbours_dict (entries : List Neighbor) :
    (keysOf (alice_neighbours_dict entries)).Nodup :=
  nodup_keysOf_foldl_entries entries [] (by simp [keysOf])

theorem totalOf_process_route_server (asn : Nat) (acc : List (Nat × Nat))
    (fetched : Option (List Neighbor)) (hnd : (keysOf acc).Nodup) :
    totalOf asn (process_route_server acc fetched) =
      totalOf asn acc +
        (match fetched with
         | none => 0
         | some entries => entriesSum asn entries) := by
  match fetched with
  | none => simp [process_route_server]
  | some entries =>
    show totalOf asn ((alice_neighbours_dict entries).foldl
        (fun a p => addRoute a p.1 p.2) acc) = _
    rw [totalOf_foldl_pairs asn _ acc hnd, alice_neighbours_dict_total]

theorem nodup_process_route_server (acc : List (Nat × Nat))
    (fetched : Option (List Neighbor)) (hnd : (keysOf acc).Nodup) :
    (keysOf (process_route_server acc fetched)).Nodup := by
  match fetched with
  | none => exact hnd
  | some entries => exact nodup_keysOf_foldl_pairs _ acc hnd

theorem totalOf_foldl_resps (asn : Nat) (resps : List (Option (List Neighbor)))
    (acc : List (Nat × Nat)) (hnd : (keysOf acc).Nodup) :
    totalOf asn (resps.foldl process_route_server acc) =
      totalOf asn acc + responsesSum asn resps := by
  induction resps generalizing acc with
  | nil => simp [responsesSum]
  | cons r rest ih =>
    rw [List.foldl_cons, ih _ (nodup_process_route_server acc r hnd),
      totalOf_process_route_server asn acc r hnd]
    match r with
    | none => simp [responsesSum]
    | some entries =>
      simp only [responsesSum, List.filterMap_cons, id]
      rw [List.map_cons, List.sum_cons]
      omega

theorem nodup_keysOf_runAggregation (resps : List (Option (List Neighbor))) :
    (keysOf (runAggregation resps)).Nodup := by
  unfold runAggregation
  have h : ∀ (rs : List (Option (List Neighbor))) (acc : List (Nat × Nat)),
      (keysOf acc).Nodup → (keysOf (rs.foldl process_route_server acc)).Nodup := by
    intro rs
    induction rs with
    | nil => intro acc h; exact h
    | cons r rest ih =>
      intro acc h
      exact ih _ (nodup_process_route_server acc r h)
  exact h resps [] (by simp [keysOf])

/-- Stable insertion into a list sorted descending by value, realizing
Python `sorted(items, key=lambda item: item[1], reverse=True)`: an entry
moves before the first entry with a strictly smaller value. -/
def insertDesc (p : Nat × Nat) : List (Nat × Nat) → List (Nat × Nat)
  | [] => [p]
  | q :: rest => if q.2 < p.2 then p :: q :: rest else q :: insertDesc p rest

/-- `filtered_routes_sorted` (lines 96-98): the accumulator's items sorted
descending by value, stably. -/
def sortDesc (l : List (Nat × Nat)) : List (Nat × Nat) :=
  l.foldr insertDesc []

/-- `filtered_routes_clean` (lines 99-101): the sorted items with
zero-valued entries dropped, order otherwise kept. -/
def filtered_routes_clean (acc : List (Nat × Nat)) : List (Nat × Nat) :=
  (sortDesc acc).filter (fun p => p.2 ≠ 0)

/-- The ASNs for which `alice_host` creates `get_asn_details` tasks
(lines 107-110); one report row is appended per task (lines 111-114), so
this list also indexes the data rows of the rendered report, in order. -/
def enrichedAsns (acc : List (Nat × Nat)) : List Nat :=
  keysOf (filtered_routes_clean acc)

theorem pairwise_insertDesc (p : Nat × Nat) (l : List (Nat × Nat))
    (h : l.Pairwise (fun a b => b.2 ≤ a.2)) :
    (insertDesc p l).Pairwise (fun a b => b.2 ≤ a.2) := by
  induction l with
  | nil => simp [insertDesc]
  | cons q rest ih =>
    rw [List.pairwise_cons] at h
    unfold insertDesc
    by_cases hq : q.2 < p.2
    · rw [if_pos hq, List.pairwise_cons]
      refine ⟨?_, List.pairwise_cons.mpr h⟩
      intro x hx
      rcases List.mem_cons.mp hx with rfl | hx'
      · omega
      · have := h.1 x hx'
        omega
    · rw [if_neg hq, List.pairwise_cons]
      refine ⟨?_, ih h.2⟩
      intro x hx
      have hmem : x = p ∨ x ∈ rest := by
        clear ih h
        induction rest with
        | nil => simpa [insertDesc] using hx
        | cons r rs ihr =>
          unfold insertDesc at hx
          by_cases hr : r.2 < p.2
          · rw [if_pos hr] at hx
            rcases List.mem_cons.mp hx with rfl | hx'
            · exact Or.inl rfl
            · exact Or.inr hx'
          · rw [if_neg hr] at hx
            rcases List.mem_cons.mp hx with rfl | hx'
            · exact Or.inr (List.mem_cons_self _ _)
            · rcases ihr hx' with h1 | h2
              · exact Or.inl h1
              · exact Or.inr (List.mem_cons_of_mem _ h2)
      rcases hmem with rfl | hx'
      · omega
      · exact h.1 x hx'

theorem sortDesc_pairwise (l : List (Nat × Nat)) :
    (sortDesc l).Pairwise (fun a b => b.2 ≤ a.2) := by
  induction l with
  | nil => simp [sortDesc]
  | cons p rest ih => exact pairwise_insertDesc p _ ih

theorem insertDesc_perm (p : Nat × Nat) (l : List (Nat × Nat)) :
    List.Perm (insertDesc p l) (p :: l) := by
  induction l with
  | nil => simp [insertDesc]
  | cons q rest ih =>
    unfold insertDesc
    by_cases hq : q.2 < p.2
    · rw [if_pos hq]
    · rw [if_neg hq]
      exact (ih.cons q).trans (List.Perm.swap p q rest)

theorem sortDesc_perm (l : List (Nat × Nat)) : List.Perm (sortDesc l) l := by
  induction l with
  | nil => rfl
  | cons p rest ih =>
    exact (insertDesc_perm p (sortDesc rest)).trans (ih.cons p)

/-- C3: the data rows of the rendered report are generated, in order, from
`filtered_routes_clean`, with the row's leading filtered-route count equal
to the entry's value; these values appear in descending order. -/
theorem c3_report_sorted_desc (resps : List (Option (List Neighbor))) :
    ((filtered_routes_clean (runAggregation resps)).map Prod.snd).Pairwise
      (fun a b => b ≤ a) := by
  rw [List.pairwise_map]
  exact (sortDesc_pairwise (runAggregation resps)).filter _

theorem member_value_le_totalOf (asn : Nat) (acc : List (Nat × Nat))
    (p : Nat × Nat) (hp : p ∈ acc) (hkey : p.1 = asn) :
    p.2 ≤ totalOf asn acc := by
  unfold totalOf
  apply List.single_le_sum (fun x _ => Nat.zero_le x)
  exact List.mem_map_of_mem Prod.snd (List.mem_filter.mpr ⟨hp, by simp [hkey]⟩)

theorem totalOf_ne_zero_exists (asn : Nat) (acc : List (Nat × Nat))
    (h : totalOf asn acc ≠ 0) : ∃ p ∈ acc, p.1 = asn ∧ p.2 ≠ 0 := by
  by_contra hc
  push_neg at hc
  apply h
  unfold totalOf
  rw [List.sum_eq_zero]
  intro x hx
  rcases List.mem_map.mp hx with ⟨p, hpf, rfl⟩
  rcases List.mem_filter.mp hpf with ⟨hpacc, hpkey⟩
  exact hc p hpacc (by simpa using hpkey)

theorem countP_key_le_one (asn : Nat) (acc : List (Nat × Nat))
    (hnd : (keysOf acc).Nodup) :
    acc.countP (fun p => p.1 = asn) ≤ 1 := by
  have h1 : (keysOf acc).count asn ≤ 1 := List.nodup_iff_count_le_one.mp hnd asn
  rw [List.count_eq_countP, keysOf, List.countP_map] at h1
  refine le_trans (le_of_eq (List.countP_congr ?_)) h1
  intro x hx
  simp

theorem count_enrichedAsns (asn : Nat) (acc : List (Nat × Nat)) :
    (enrichedAsns acc).count asn =
      acc.countP (fun p => p.1 = asn ∧ p.2 ≠ 0) := by
  unfold enrichedAsns keysOf filtered_routes_clean
  rw [List.count_eq_countP, List.countP_map, List.countP_filter,
    List.Perm.countP_eq _ (sortDesc_perm acc)]
  apply List.countP_congr
  intro x hx
  simp

/-- C2: an ASN whose final aggregated total is exactly zero gets no
`get_asn_details` task and no report row; an ASN with a nonzero total
appears exactly once in the task/row list. -/
theorem c2_zero_dropped (resps : List (Option (List Neighbor))) (asn : Nat) :
    (totalOf asn (runAggregation resps) = 0 →
      asn ∉ enrichedAsns (runAggregation resps)) ∧
    (totalOf asn (runAggregation resps) ≠ 0 →
      (enrichedAsns (runAggregation resps)).count asn = 1) := by
  have hnd : (keysOf (runAggregation resps)).Nodup :=
    nodup_keysOf_runAggregation resps
  constructor
  · intro h0 hmem
    unfold enrichedAsns keysOf at hmem
    rcases List.mem_map.mp hmem with ⟨p, hpclean, hp1⟩
    rcases List.mem_filter.mp hpclean with ⟨hpsort, hpnz⟩
    have hpacc : p ∈ runAggregation resps :=
      (sortDesc_perm (runAggregation resps)).subset hpsort
    have hle := member_value_le_totalOf asn (runAggregation resps) p hpacc hp1
    rw [h0] at hle
    have hz : p.2 = 0 := Nat.le_zero.mp hle
    simp [hz] at hpnz
  · intro hne
    rw [count_enrichedAsns]
    have hub : (runAggregation resps).countP
        (fun p => p.1 = asn ∧ p.2 ≠ 0) ≤ 1 := by
      refine le_trans (List.countP_mono_left ?_)
        (countP_key_le_one asn (runAggregation resps) hnd)
      intro x hx h
      simp only [decide_eq_true_eq] at h ⊢
      exact h.1
    have hlb : 0 < (runAggregation resps).countP
        (fun p => p.1 = asn ∧ p.2 ≠ 0) := by
      rcases totalOf_ne_zero_exists asn (runAggregation resps) hne with
        ⟨p, hpacc, hp1, hp2⟩
      exact List.countP_pos_iff.mpr ⟨p, hpacc, by simp [hp1, hp2]⟩
    omega

/-- Witness for C2 on the spec's own scenario: one route server reporting
ASN 100 with 5 filtered routes and ASN 200 with 0. -/
theorem c2_zero_dropped_witness :
    200 ∉ enrichedAsns (runAggregation [some [⟨100, 5⟩, ⟨200, 0⟩]]) ∧
    (enrichedAsns (runAggregation [some [⟨100, 5⟩, ⟨200, 0⟩]])).count 100 = 1 :=
  ⟨(c2_zero_dropped [some [⟨100, 5⟩, ⟨200, 0⟩]] 200).1 (by decide),
   (c2_zero_dropped [some [⟨100, 5⟩, ⟨200, 0⟩]] 100).2 (by decide)⟩

/-- C1: after all route servers of an exchange have been processed, the
accumulator's total for each ASN is the arithmetic sum of that ASN's
`routes_filtered` values over every route-server response that returned
data (an ASN already present has values added to its running total,
otherwise a new entry is created). -/
theorem c1_final_totals (resps : List (Option (List Neighbor))) (asn : Nat) :
    totalOf asn (runAggregation resps) = responsesSum asn resps := by
  unfold runAggregation
  rw [totalOf_foldl_resps asn resps [] (by simp [keysOf]), totalOf_nil]
  omega

/-- The Python exception kinds the embedded methods can raise. -/
inductive PyErr where
  /-- `requests.exceptions.RequestException`: transient network-level
  failure of a `requests` call. -/
  | requestException
  /-- An `aiohttp` client error: transient network-level failure of an
  `aiohttp` call. -/
  | aiohttpClientError
  /-- `UnboundLocalError`: a local variable read before assignment. -/
  | unboundLocalError
  /-- `KeyError`: a missing dictionary key. -/
  | keyError
  /-- `sys.exit(code)`. -/
  | sysExit (code : Nat)
deriving DecidableEq

/-- The JSON body of a neighbor-listing response: the entry array may sit
under the key `neighbors` or `neighbours` (or be absent). -/
structure NeighResp where
  neighbors : Option (List Neighbor)
  neighbours : Option (List Neighbor)
deriving DecidableEq

/-- `alice_neighbours` (lines 257-292): on HTTP 200, build the per-ASN
dict from `data["neighbors"]` when that key exists, else from
`data["neighbours"]` (KeyError when neither exists); on HTTP 500, return
`None`; on any other status, the method reaches `return neighbour_dict`
with the local never assigned, raising UnboundLocalError. -/
def alice_neighbours (status : Nat) (body : NeighResp) :
    Except PyErr (Option (List (Nat × Nat))) :=
  if status = 200 then
    match body.neighbors with
    | some entries => .ok (some (alice_neighbours_dict entries))
    | none =>
      match body.neighbours with
      | some entries => .ok (some (alice_neighbours_dict entries))
      | none => .error .keyError
  else if status = 500 then .ok none
  else .error .unboundLocalError

/-- `process_route_server` (lines 123-144) at the level of one HTTP
response: an exception raised by `alice_neighbours` propagates, a `None`
result contributes nothing, and otherwise the fetched dict is merged into
the shared accumulator. -/
def process_route_server_http (acc : List (Nat × Nat))
    (resp : Nat × NeighResp) : Except PyErr (List (Nat × Nat)) :=
  match alice_neighbours resp.1 resp.2 with
  | .error e => .error e
  | .ok none => .ok acc
  | .ok (some fetched) =>
      .ok (fetched.foldl (fun a p => addRoute a p.1 p.2) acc)

/-- The exchange run over a list of (status, body) route-server responses,
starting from accumulator `acc`; the first raised exception aborts the
run. -/
def runExchangeFrom (acc : List (Nat × Nat)) :
    List (Nat × NeighResp) → Except PyErr (List (Nat × Nat))
  | [] => .ok acc
  | r :: rest =>
    match process_route_server_http acc r with
    | .error e => .error e
    | .ok acc2 => runExchangeFrom acc2 rest

theorem runExchangeFrom_cons (acc : List (Nat × Nat)) (r : Nat × NeighResp)
    (rest : List (Nat × NeighResp)) :
    runExchangeFrom acc (r :: rest) =
      match process_route_server_http acc r with
      | .error e => .error e
      | .ok acc2 => runExchangeFrom acc2 rest := by
  simp only [runExchangeFrom]

theorem runExchangeFrom_append (acc : List (Nat × Nat))
    (xs ys : List (Nat × NeighResp)) :
    runExchangeFrom acc (xs ++ ys) =
      match runExchangeFrom acc xs with
      | .error e => .error e
      | .ok acc2 => runExchangeFrom acc2 ys := by
  induction xs generalizing acc with
  | nil => simp [runExchangeFrom]
  | cons r rest ih =>
    rw [List.cons_append, runExchangeFrom_cons, runExchangeFrom_cons]
    match h : process_route_server_http acc r with
    | .error e => rfl
    | .ok acc2 => exact ih acc2

theorem process_500 (acc : List (Nat × Nat)) (b : NeighResp) :
    process_route_server_http acc (500, b) = .ok acc := by
  unfold process_route_server_http alice_neighbours
  simp

theorem process_other_status (acc : List (Nat × Nat)) (b : NeighResp)
    (s : Nat) (h200 : s ≠ 200) (h500 : s ≠ 500) :
    process_route_server_http acc (s, b) = .error .unboundLocalError := by
  unfold process_route_server_http alice_neighbours
  simp [h200, h500]

/-- C4: a route server whose neighbor fetch answers HTTP 500 contributes
nothing to the accumulator and processing continues with the remaining
route servers (the run equals the run without that response); any other
non-200 status raises, so the run fails instead of continuing. -/
theorem c4_http_errors (xs ys : List (Nat × NeighResp)) (b : NeighResp)
    (s : Nat) :
    (∀ acc, runExchangeFrom acc (xs ++ (500, b) :: ys) =
      runExchangeFrom acc (xs ++ ys)) ∧
    (s ≠ 200 → s ≠ 500 → ∀ acc acc2, runExchangeFrom acc xs = .ok acc2 →
      runExchangeFrom acc (xs ++ (s, b) :: ys) =
        .error .unboundLocalError) := by
  constructor
  · intro acc
    rw [runExchangeFrom_append, runExchangeFrom_append]
    match h : runExchangeFrom acc xs with
    | .error e => simp
    | .ok acc2 =>
      show runExchangeFrom acc2 ((500, b) :: ys) = runExchangeFrom acc2 ys
      rw [runExchangeFrom_cons, process_500]
  · intro h200 h500 acc acc2 hxs
    rw [runExchangeFrom_append, hxs]
    show runExchangeFrom acc2 ((s, b) :: ys) = _
    rw [runExchangeFrom_cons, process_other_status acc2 b s h200 h500]

/-- Witness for C4: one healthy route server, then a 500 one (skipped),
then a 404 one (fails the run). -/
theorem c4_http_errors_witness :
    (runExchangeFrom []
        [(200, ⟨some [⟨300, 3⟩], none⟩), (500, ⟨none, none⟩)] =
      runExchangeFrom [] [(200, ⟨some [⟨300, 3⟩], none⟩)]) ∧
    runExchangeFrom []
        [(200, ⟨some [⟨300, 3⟩], none⟩), (404, ⟨none, none⟩)] =
      .error .unboundLocalError :=
  ⟨(c4_http_errors [(200, ⟨some [⟨300, 3⟩], none⟩)] [] ⟨none, none⟩ 404).1 [],
   (c4_http_errors [(200, ⟨some [⟨300, 3⟩], none⟩)] [] ⟨none, none⟩ 404).2
     (by decide) (by decide) [] [(300, 3)] rfl⟩

/-- C8: the neighbor-listing aggregation accepts the entry array under
either key `neighbors` or `neighbours` and proceeds identically. -/
theorem c8_neighbours_key (status : Nat) (entries : List Neighbor) :
    alice_neighbours status ⟨some entries, none⟩ =
      alice_neighbours status ⟨none, some entries⟩ := by
  unfold alice_neighbours
  by_cases h : status = 200 <;> simp [h]

/-- The characters of a string literal; report text is modelled as
`List Char`. -/
def str (s : String) : List Char := s.data

/-- Decimal rendering of a Python int, as `str(n)` / f-string
interpolation produce it. -/
def natChars (n : Nat) : List Char := (Nat.repr n).data

/-- The `details` dict of `get_asn_details` (lines 146-187), restricted to
the four keys the method reads.  `none` models a missing key;
`countryIso` holds the nested `country["iso"]` value. -/
structure AsnDetails where
  asnName : Option (List Char)
  rank : Option (List Char)
  source : Option (List Char)
  countryIso : Option (List Char)
deriving DecidableEq

/-- Python truthiness of the `details` dict over these four keys: truthy
iff the dict is nonempty. -/
def detailsTruthy (d : AsnDetails) : Bool :=
  d.asnName.isSome || d.rank.isSome || d.source.isSome || d.countryIso.isSome

/-- Python falsiness of `details.get("asnName")`: falsy when the key is
missing or holds an empty string. -/
def asnNameFalsy (d : AsnDetails) : Bool :=
  match d.asnName with
  | none => true
  | some s => s.isEmpty

/-- The all-"NA" record substituted for a falsy `details` (lines 176-182). -/
def naDetails : AsnDetails :=
  ⟨some (str "NA"), some (str "NA"), some (str "NA"), some (str "NA")⟩

/-- The fixed synthetic record used for ASN 64567, the private ASN of
AMS-IX (lines 165-171). -/
def privateAsnDetails : AsnDetails :=
  ⟨some (str "Private ASN"), some (str "NA"), some (str "NA"), some (str "NL")⟩

/-- Lines 173-182: a falsy `details` becomes the all-"NA" record; in a
truthy record, a falsy `asnName` is defaulted to "NA". -/
def pyFixDetails : Option AsnDetails → AsnDetails
  | some d =>
    if detailsTruthy d then
      (if asnNameFalsy d then { d with asnName := some (str "NA") } else d)
    else naDetails
  | none => naDetails

/-- The f-string of lines 184-187 building one report row. -/
def formatRow (pfxs asn : Nat) (name rank source iso : List Char) :
    List Char :=
  natChars pfxs ++ str " | " ++ natChars asn ++ str " | " ++ name ++
    str " | " ++ rank ++ str " | " ++ source ++ str " | " ++ iso ++
    str " " ++ str "| https://www.peeringdb.com/asn/" ++ natChars asn

/-- Lines 184-187 as a fallible read: accessing `rank`, `source` or
`country["iso"]` on a record lacking them raises KeyError. -/
def formatDetails (pfxs asn : Nat) (d : AsnDetails) :
    Except PyErr (List Char) :=
  match d.asnName, d.rank, d.source, d.countryIso with
  | some nm, some rk, some src, some iso =>
      .ok (formatRow pfxs asn nm rk src iso)
  | _, _, _, _ => .error .keyError

/-- `get_asn_details` (lines 146-187): ASN 64567 short-circuits to the
fixed synthetic record without consulting the registry oracle `whois`;
every other ASN uses the oracle's record. -/
def get_asn_details (whois : Nat → Option AsnDetails) (asn pfxs : Nat) :
    Except PyErr (List Char) :=
  formatDetails pfxs asn
    (pyFixDetails (if asn ≠ 64567 then whois asn else some privateAsnDetails))

theorem get_asn_details_not_private (whois : Nat → Option AsnDetails)
    (asn pfxs : Nat) (h : asn ≠ 64567) :
    get_asn_details whois asn pfxs =
      formatDetails pfxs asn (pyFixDetails (whois asn)) := by
  unfold get_asn_details
  rw [if_pos h]

/-- C6: enrichment of the designated private ASN 64567 never consults the
registry oracle (the result is the same for every oracle) and always
yields the fixed synthetic row: name "Private ASN", rank and source "NA",
country "NL". -/
theorem c6_private_asn (whois : Nat → Option AsnDetails) (pfxs : Nat) :
    get_asn_details whois 64567 pfxs =
      .ok (formatRow pfxs 64567 (str "Private ASN") (str "NA") (str "NA")
        (str "NL")) := rfl

/-- C5 counterexample: a 200 registry response whose detail record has a
name but lacks `rank`, `source` and `country` is not completed with
"not available" markers; `get_asn_details` raises KeyError and produces
no row at all. -/
theorem c5_counterexample :
    get_asn_details
        (fun _ => some ⟨some (str "ExampleNet"), none, none, none⟩) 100 5 =
      .error .keyError := rfl

/-- C5 amended: only the name field is defaulted.  A falsy (empty) detail
record is replaced by the all-"NA" row; a record carrying `rank`, `source`
and `country` yields a row whose name is defaulted to "NA" exactly when
missing or empty; but a nonempty record missing `rank`, `source` or
`country` raises KeyError instead of receiving markers. -/
theorem c5_amended (d : AsnDetails) (asn pfxs : Nat) (h : asn ≠ 64567) :
    (detailsTruthy d = false →
      get_asn_details (fun _ => some d) asn pfxs =
        .ok (formatRow pfxs asn (str "NA") (str "NA") (str "NA")
          (str "NA"))) ∧
    (∀ rk src iso, d.rank = some rk → d.source = some src →
      d.countryIso = some iso →
      get_asn_details (fun _ => some d) asn pfxs =
        .ok (formatRow pfxs asn
          (if asnNameFalsy d then str "NA" else d.asnName.getD []) rk src
          iso)) ∧
    (detailsTruthy d = true →
      (d.rank = none ∨ d.source = none ∨ d.countryIso = none) →
      get_asn_details (fun _ => some d) asn pfxs = .error .keyError) := by
  obtain ⟨a, r, s, i⟩ := d
  rw [get_asn_details_not_private _ _ _ h]
  refine ⟨?_, ?_, ?_⟩
  · intro ht
    simp only [pyFixDetails, ht, Bool.false_eq_true, if_false]
    rfl
  · intro rk src iso hr hs hi
    subst hr; subst hs; subst hi
    have ht : detailsTruthy ⟨a, some rk, some src, some iso⟩ = true := by
      simp [detailsTruthy]
    simp only [pyFixDetails, ht, if_true]
    by_cases hf : asnNameFalsy ⟨a, some rk, some src, some iso⟩ = true
    · simp only [hf, if_true]
      rfl
    · simp only [hf, if_false]
      match a, hf with
      | some nm, _ => rfl
      | none, hf => simp [asnNameFalsy] at hf
  · intro ht hmiss
    simp only [pyFixDetails, ht, if_true]
    by_cases hf : asnNameFalsy ⟨a, r, s, i⟩ = true
    · simp only [hf, if_true]
      rcases hmiss with hm | hm | hm <;> simp only at hm <;> subst hm
      · cases s <;> cases i <;> rfl
      · cases r <;> cases i <;> rfl
      · cases r <;> cases s <;> rfl
    · simp only [hf, if_false]
      have : ∃ nm, a = some nm := by
        match a, hf with
        | some nm, _ => exact ⟨nm, rfl⟩
        | none, hf => simp [asnNameFalsy] at hf
      obtain ⟨nm, rfl⟩ := this
      rcases hmiss with hm | hm | hm <;> simp only at hm <;> subst hm
      · cases s <;> cases i <;> rfl
      · cases r <;> cases i <;> rfl
      · cases r <;> cases s <;> rfl

/-- Witness for C5 amended: an empty record row, a name-only default, and
a missing-rank KeyError, all at concrete inputs. -/
theorem c5_amended_witness :
    get_asn_details (fun _ => some ⟨none, none, none, none⟩) 100 5 =
      .ok (formatRow 5 100 (str "NA") (str "NA") (str "NA") (str "NA")) ∧
    get_asn_details
        (fun _ => some ⟨none, some (str "7"), some (str "CAIDA"),
          some (str "US")⟩) 100 5 =
      .ok (formatRow 5 100 (str "NA") (str "7") (str "CAIDA")
        (str "US")) ∧
    get_asn_details
        (fun _ => some ⟨some (str "ExampleNet"), none, some (str "CAIDA"),
          some (str "US")⟩) 100 5 = .error .keyError :=
  ⟨(c5_amended ⟨none, none, none, none⟩ 100 5 (by decide)).1 (by decide),
   (c5_amended ⟨none, some (str "7"), some (str "CAIDA"), some (str "US")⟩
       100 5 (by decide)).2.1 (str "7") (str "CAIDA") (str "US") rfl rfl rfl,
   (c5_amended ⟨some (str "ExampleNet"), none, some (str "CAIDA"),
       some (str "US")⟩ 100 5 (by decide)).2.2 (by decide)
     (Or.inl rfl)⟩

/-- The whitespace characters `str.strip()` removes (ASCII set). -/
def pySpace (c : Char) : Bool :=
  c == ' ' || c == '\t' || c == '\n' || c == '\r' ||
    c == Char.ofNat 11 || c == Char.ofNat 12

/-- Remove trailing whitespace. -/
def stripRight (l : List Char) : List Char :=
  (l.reverse.dropWhile pySpace).reverse

/-- Python `str.strip()`: remove leading and trailing whitespace. -/
def pyStrip (l : List Char) : List Char :=
  stripRight (l.dropWhile pySpace)

/-- Python `str.split(c)` for a one-character separator: the segments
between occurrences of `c`, empty segments kept. -/
def splitChar (c : Char) : List Char → List (List Char)
  | [] => [[]]
  | x :: xs =>
    if x = c then [] :: splitChar c xs
    else
      match splitChar c xs with
      | [] => [[x]]
      | y :: ys => (x :: y) :: ys

/-- `"\n".join(...)` over the report lines. -/
def joinLines : List (List Char) → List Char
  | [] => []
  | [l] => l
  | l :: ls => l ++ '\n' :: joinLines ls

theorem splitChar_ne_nil (c : Char) (l : List Char) : splitChar c l ≠ [] := by
  induction l with
  | nil => simp [splitChar]
  | cons x xs ih =>
    simp only [splitChar]
    by_cases hx : x = c
    · simp [hx]
    · rw [if_neg hx]
      match h : splitChar c xs with
      | [] => simp
      | y :: ys => simp

theorem splitChar_no_c (c : Char) (l : List Char) (h : c ∉ l) :
    splitChar c l = [l] := by
  induction l with
  | nil => rfl
  | cons x xs ih =>
    have hx : x ≠ c := fun hc => h (hc ▸ List.mem_cons_self x xs)
    have hxs : c ∉ xs := fun hc => h (List.mem_cons_of_mem x hc)
    simp only [splitChar, if_neg hx]
    rw [ih hxs]

theorem splitChar_cons_self (c : Char) (l : List Char) :
    splitChar c (c :: l) = [] :: splitChar c l := by
  simp [splitChar]

theorem splitChar_append_left (c : Char) (a b : List Char)
    (ha : c ∉ a) (y : List Char) (ys : List (List Char))
    (hb : splitChar c b = y :: ys) :
    splitChar c (a ++ b) = (a ++ y) :: ys := by
  induction a with
  | nil => simpa using hb
  | cons x xs ih =>
    have hx : x ≠ c := fun hc => ha (hc ▸ List.mem_cons_self x xs)
    have hxs : c ∉ xs := fun hc => ha (List.mem_cons_of_mem x hc)
    rw [List.cons_append]
    simp only [splitChar, if_neg hx]
    rw [ih hxs]
    simp

theorem splitChar_length (c : Char) (l : List Char) :
    (splitChar c l).length = l.count c + 1 := by
  induction l with
  | nil => simp [splitChar]
  | cons x xs ih =>
    simp only [splitChar]
    by_cases hx : x = c
    · subst hx
      rw [if_pos rfl, List.count_cons_self]
      simpa using ih
    · rw [if_neg hx, List.count_cons_of_ne (fun hc => hx hc.symm) xs]
      match h : splitChar c xs with
      | [] => exact absurd h (splitChar_ne_nil c xs)
      | y :: ys =>
        rw [h] at ih
        simp only [List.length_cons] at ih ⊢
        omega

theorem splitChar_joinLines (l0 : List Char) (ls : List (List Char))
    (h0 : '\n' ∉ l0) (hls : ∀ r ∈ ls, '\n' ∉ r) :
    splitChar '\n' (joinLines (l0 :: ls)) = l0 :: ls := by
  induction ls generalizing l0 with
  | nil => exact splitChar_no_c '\n' l0 h0
  | cons l1 rest ih =>
    show splitChar '\n' (l0 ++ '\n' :: joinLines (l1 :: rest)) = _
    have hrec : splitChar '\n' (joinLines (l1 :: rest)) = l1 :: rest :=
      ih l1 (hls l1 (List.mem_cons_self l1 rest))
        (fun r hr => hls r (List.mem_cons_of_mem l1 hr))
    have hcons : splitChar '\n' ('\n' :: joinLines (l1 :: rest)) =
        [] :: l1 :: rest := by
      rw [splitChar_cons_self, hrec]
    rw [splitChar_append_left '\n' l0 _ h0 [] (l1 :: rest) hcons]
    simp

theorem joinLines_append_last (xs : List (List Char)) (z : List Char)
    (h : xs ≠ []) : joinLines (xs ++ [z]) = joinLines xs ++ '\n' :: z := by
  induction xs with
  | nil => exact absurd rfl h
  | cons x rest ih =>
    match rest with
    | [] => rfl
    | r :: rs =>
      show joinLines (x :: ((r :: rs) ++ [z])) = _
      have : joinLines (x :: ((r :: rs) ++ [z])) =
          x ++ '\n' :: joinLines ((r :: rs) ++ [z]) := rfl
      rw [this, ih (by simp)]
      show _ = (x ++ '\n' :: joinLines (r :: rs)) ++ '\n' :: z
      simp

theorem stripRight_decomp (l : List Char) :
    ∃ d, l = stripRight l ++ d ∧ ∀ x ∈ d, pySpace x = true := by
  refine ⟨(l.reverse.takeWhile pySpace).reverse, ?_, ?_⟩
  · calc l = l.reverse.reverse := (List.reverse_reverse l).symm
    _ = (l.reverse.takeWhile pySpace ++ l.reverse.dropWhile pySpace).reverse := by
        rw [List.takeWhile_append_dropWhile]
    _ = stripRight l ++ (l.reverse.takeWhile pySpace).reverse := by
        rw [List.reverse_append]; rfl
  · intro x hx
    exact List.mem_takeWhile_imp (List.mem_reverse.mp hx)

theorem stripRight_append (a b : List Char)
    (hb : ∃ x ∈ b, pySpace x = false) :
    stripRight (a ++ b) = a ++ stripRight b := by
  unfold stripRight
  rw [List.reverse_append, List.dropWhile_append]
  have hne : (b.reverse.dropWhile pySpace).isEmpty ≠ true := by
    intro hc
    obtain ⟨x, hx, hpx⟩ := hb
    have hall := List.dropWhile_eq_nil_iff.mp (List.isEmpty_iff.mp hc)
    have := hall x (List.mem_reverse.mpr hx)
    rw [hpx] at this
    exact Bool.noConfusion this
  rw [if_neg hne, List.reverse_append, List.reverse_reverse]

theorem stripRight_cons_nonspace (x : Char) (l : List Char)
    (hx : pySpace x = false) : stripRight (x :: l) = x :: stripRight l := by
  by_cases hl : ∃ y ∈ l, pySpace y = false
  · exact stripRight_append [x] l hl
  · push_neg at hl
    have hall : ∀ y ∈ l, pySpace y = true := by
      intro y hy
      have := hl y hy
      cases hps : pySpace y
      · exact absurd hps this
      · rfl
    have h1 : stripRight l = [] := by
      unfold stripRight
      have : l.reverse.dropWhile pySpace = [] :=
        List.dropWhile_eq_nil_iff.mpr
          (fun y hy => hall y (List.mem_reverse.mp hy))
      rw [this]; rfl
    have h2 : stripRight (x :: l) = [x] := by
      unfold stripRight
      have hrev : (x :: l).reverse = l.reverse ++ [x] := by simp
      rw [hrev, List.dropWhile_append]
      have : l.reverse.dropWhile pySpace = [] :=
        List.dropWhile_eq_nil_iff.mpr
          (fun y hy => hall y (List.mem_reverse.mp hy))
      rw [this]
      simp [List.dropWhile_cons, hx]
    rw [h1, h2]

theorem dropWhile_cons_nonspace (x : Char) (l : List Char)
    (hx : pySpace x = false) : (x :: l).dropWhile pySpace = x :: l := by
  simp [List.dropWhile_cons, hx]

theorem count_stripRight (c : Char) (l : List Char)
    (hc : pySpace c = false) : (stripRight l).count c = l.count c := by
  obtain ⟨d, hd, hsp⟩ := stripRight_decomp l
  conv_rhs => rw [hd]
  rw [List.count_append]
  have hz : d.count c = 0 := by
    apply List.count_eq_zero.mpr
    intro hm
    have := hsp c hm
    rw [this] at hc
    exact Bool.noConfusion hc
  omega

theorem mem_stripRight (c : Char) (l : List Char) (h : c ∈ stripRight l) :
    c ∈ l := by
  obtain ⟨d, hd, _⟩ := stripRight_decomp l
  rw [hd]
  exact List.mem_append_left d h

theorem pyStrip_head (x : Char) (l : List Char) (hx : pySpace x = false) :
    pyStrip (x :: l) = x :: stripRight l := by
  unfold pyStrip
  rw [dropWhile_cons_nonspace x l hx, stripRight_cons_nonspace x l hx]

/-- Python dict insertion: overwrite the value in place when the key is
present, else append a new entry. -/
def pyDictInsert (d : List (List Char × List Char)) (k v : List Char) :
    List (List Char × List Char) :=
  if d.any (fun p => p.1 = k) then
    d.map (fun p => if p.1 = k then (k, v) else p)
  else d ++ [(k, v)]

/-- `dict(zip(headers, values))` (line 205): fold the zipped pairs into a
dict; keys keep first-occurrence order, later values overwrite earlier
ones. -/
def pyDict (l : List (List Char × List Char)) :
    List (List Char × List Char) :=
  l.foldl (fun d p => pyDictInsert d p.1 p.2) []

/-- `record[k]`: the first entry with key `k`. -/
def lookupKey (k : List Char) :
    List (List Char × List Char) → Option (List Char)
  | [] => none
  | p :: rest => if p.1 = k then some p.2 else lookupKey k rest

/-- The first defined of two optional values. -/
def firstSome (a b : Option (List Char)) : Option (List Char) :=
  match a with
  | some x => some x
  | none => b

theorem firstSome_none_right (a : Option (List Char)) :
    firstSome a none = a := by
  cases a <;> rfl

theorem firstSome_assoc (a b c : Option (List Char)) :
    firstSome (firstSome a b) c = firstSome a (firstSome b c) := by
  cases a <;> rfl

theorem lookupKey_append (k : List Char)
    (a b : List (List Char × List Char)) :
    lookupKey k (a ++ b) = firstSome (lookupKey k a) (lookupKey k b) := by
  induction a with
  | nil => rfl
  | cons p rest ih =>
    simp only [List.cons_append, lookupKey]
    by_cases hp : p.1 = k
    · simp [hp, firstSome]
    · simp only [if_neg hp]
      exact ih

theorem lookupKey_eq_none_of_not_mem (k : List Char)
    (d : List (List Char × List Char)) (h : k ∉ d.map Prod.fst) :
    lookupKey k d = none := by
  induction d with
  | nil => rfl
  | cons p rest ih =>
    have hp : p.1 ≠ k := by
      intro hc
      exact h (by simp [← hc])
    simp only [lookupKey, if_neg hp]
    exact ih (fun hc => h (List.mem_cons_of_mem _ hc))

theorem lookupKey_map_ne (k k' v : List Char)
    (d : List (List Char × List Char)) (h : k' ≠ k) :
    lookupKey k (d.map (fun p => if p.1 = k' then (k', v) else p)) =
      lookupKey k d := by
  induction d with
  | nil => rfl
  | cons p rest ih =>
    simp only [List.map_cons]
    by_cases hp : p.1 = k'
    · simp only [if_pos hp, lookupKey, if_neg h, if_neg (hp ▸ h : ¬p.1 = k)]
      exact ih
    · simp only [if_neg hp, lookupKey]
      by_cases hpk : p.1 = k
      · simp [hpk]
      · simp only [if_neg hpk]
        exact ih

theorem lookupKey_map_overwrite_mem (k k' v : List Char)
    (d : List (List Char × List Char)) (hmem : k' ∈ d.map Prod.fst) :
    lookupKey k (d.map (fun p => if p.1 = k' then (k', v) else p)) =
      if k' = k then some v else lookupKey k d := by
  induction d with
  | nil => simp at hmem
  | cons p rest ih =>
    simp only [List.map_cons]
    by_cases hp : p.1 = k'
    · simp only [if_pos hp]
      by_cases hk : k' = k
      · simp [lookupKey, hk]
      · simp only [lookupKey, if_neg hk, if_neg ((hp.symm ▸ hk) : ¬p.1 = k)]
        exact lookupKey_map_ne k k' v rest hk
    · have hmem' : k' ∈ rest.map Prod.fst := by
        have hm2 : k' ∈ p.1 :: rest.map Prod.fst := hmem
        rcases List.mem_cons.mp hm2 with hc | hc
        · exact absurd hc.symm hp
        · exact hc
      simp only [if_neg hp, lookupKey]
      by_cases hpk : p.1 = k
      · have hk : ¬k' = k := fun hc => hp (hpk.trans hc.symm)
        simp [hpk, if_neg hk]
      · simp only [if_neg hpk]
        exact ih hmem'

theorem any_keyS_iff (d : List (List Char × List Char)) (k : List Char) :
    d.any (fun p => p.1 = k) = true ↔ k ∈ d.map Prod.fst := by
  simp [List.any_eq_true]

theorem lookupKey_pyDictInsert (k k' v : List Char)
    (d : List (List Char × List Char)) :
    lookupKey k (pyDictInsert d k' v) =
      if k' = k then some v else lookupKey k d := by
  unfold pyDictInsert
  by_cases hmem : k' ∈ d.map Prod.fst
  · rw [if_pos ((any_keyS_iff d k').mpr hmem)]
    exact lookupKey_map_overwrite_mem k k' v d hmem
  · rw [if_neg (fun hc => hmem ((any_keyS_iff d k').mp hc))]
    rw [lookupKey_append]
    by_cases hk : k' = k
    · subst hk
      rw [lookupKey_eq_none_of_not_mem k' d hmem]
      simp [lookupKey, firstSome]
    · have : lookupKey k [(k', v)] = none := by
        simp [lookupKey, hk]
      rw [this, firstSome_none_right, if_neg hk]

theorem keys_pyDictInsert_mem (k v : List Char)
    (d : List (List Char × List Char)) (h : k ∈ d.map Prod.fst) :
    (pyDictInsert d k v).map Prod.fst = d.map Prod.fst := by
  unfold pyDictInsert
  rw [if_pos ((any_keyS_iff d k).mpr h), List.map_map]
  apply List.map_congr_left
  intro p _
  by_cases hp : p.1 = k <;> simp [hp]

theorem keys_pyDictInsert_not_mem (k v : List Char)
    (d : List (List Char × List Char)) (h : k ∉ d.map Prod.fst) :
    (pyDictInsert d k v).map Prod.fst = d.map Prod.fst ++ [k] := by
  unfold pyDictInsert
  rw [if_neg (fun hc => h ((any_keyS_iff d k).mp hc))]
  simp

theorem nodup_keys_pyDictInsert (k v : List Char)
    (d : List (List Char × List Char)) (h : (d.map Prod.fst).Nodup) :
    ((pyDictInsert d k v).map Prod.fst).Nodup := by
  by_cases hmem : k ∈ d.map Prod.fst
  · rw [keys_pyDictInsert_mem k v d hmem]; exact h
  · rw [keys_pyDictInsert_not_mem k v d hmem]
    simp [List.nodup_append, h, hmem]

theorem nodup_keys_pyDict_from (l d : List (List Char × List Char))
    (h : (d.map Prod.fst).Nodup) :
    (((l.foldl (fun d p => pyDictInsert d p.1 p.2) d)).map Prod.fst).Nodup := by
  induction l generalizing d with
  | nil => exact h
  | cons p rest ih => exact ih _ (nodup_keys_pyDictInsert p.1 p.2 d h)

theorem nodup_keys_pyDict (l : List (List Char × List Char)) :
    ((pyDict l).map Prod.fst).Nodup :=
  nodup_keys_pyDict_from l [] (by simp)

theorem lookupKey_pyDict_from (k : List Char)
    (l d : List (List Char × List Char)) :
    lookupKey k (l.foldl (fun d p => pyDictInsert d p.1 p.2) d) =
      firstSome (lookupKey k l.reverse) (lookupKey k d) := by
  induction l generalizing d with
  | nil => rfl
  | cons p rest ih =>
    rw [List.foldl_cons, ih]
    have hrev : (p :: rest).reverse = rest.reverse ++ [p] := by simp
    rw [hrev, lookupKey_append, firstSome_assoc]
    congr 1
    rw [lookupKey_pyDictInsert]
    by_cases hk : p.1 = k
    · simp [lookupKey, hk, firstSome]
    · simp [lookupKey, hk, firstSome]

theorem lookupKey_pyDict (k : List Char) (l : List (List Char × List Char)) :
    lookupKey k (pyDict l) = lookupKey k l.reverse := by
  unfold pyDict
  rw [lookupKey_pyDict_from]
  exact firstSome_none_right _

theorem pyDict_from_eq_append (l d : List (List Char × List Char))
    (hdisj : ∀ x ∈ l.map Prod.fst, x ∉ d.map Prod.fst)
    (hnd : (l.map Prod.fst).Nodup) :
    l.foldl (fun d p => pyDictInsert d p.1 p.2) d = d ++ l := by
  induction l generalizing d with
  | nil => simp
  | cons p rest ih =>
    have hnd2 : (p.1 :: rest.map Prod.fst).Nodup := hnd
    have hh := List.nodup_cons.mp hnd2
    rw [List.foldl_cons]
    have hp : p.1 ∉ d.map Prod.fst :=
      hdisj p.1 (by simp)
    have hins : pyDictInsert d p.1 p.2 = d ++ [p] := by
      unfold pyDictInsert
      rw [if_neg (fun hc => hp ((any_keyS_iff d p.1).mp hc))]
    rw [hins, ih]
    · simp
    · intro x hx
      simp only [List.map_append, List.mem_append]
      rintro (hc | hc)
      · exact hdisj x (List.mem_cons_of_mem _ hx) hc
      · simp only [List.map_cons, List.map_nil, List.mem_singleton] at hc
        subst hc
        exact hh.1 (by simpa using hx)
    · exact hh.2

theorem pyDict_eq_self (l : List (List Char × List Char))
    (hnd : (l.map Prod.fst).Nodup) : pyDict l = l := by
  unfold pyDict
  rw [pyDict_from_eq_append l [] (by simp) hnd]
  simp

theorem map_fst_zip_sublist (h : List (List Char))
    (v : List (List Char)) :
    ((h.zip v).map Prod.fst).Sublist h := by
  induction h generalizing v with
  | nil => simp
  | cons x xs ih =>
    cases v with
    | nil => simp
    | cons y ys =>
      simp only [List.zip_cons_cons, List.map_cons]
      exact (ih ys).cons₂ x

/-- `parse_text_to_json` (lines 189-207): strip the text, split it into
lines, take the first line's `|`-split stripped tokens as field names,
and turn every further line into `dict(zip(headers, values))` of its
`|`-split stripped values.  `none` models the IndexError `lines[0]` would
raise on an empty line list (which never happens — see the totality
theorem). -/
def parse_text_to_json (t : List Char) :
    Option (List (List (List Char × List Char))) :=
  match splitChar '\n' (pyStrip t) with
  | [] => none
  | l0 :: rest =>
    let headers := (splitChar '|' l0).map pyStrip
    some (rest.map (fun line =>
      pyDict (headers.zip ((splitChar '|' line).map pyStrip))))

/-- The header line appended by `alice_host` (lines 103-105). -/
def headerLine (url : List Char) : List Char :=
  str "Filtered prefixes @ " ++ url ++
    str " | ASN | AS-NAME | AS Rank | Source | Country | PeeringDB link"

/-- The rendered report text `"\n".join(map(str, text))` (lines 116-121):
the header line followed by one row per enriched ASN. -/
def renderReport (url : List Char) (rows : List (List Char)) : List Char :=
  joinLines (headerLine url :: rows)

/-- C10: `parse_text_to_json` never raises; each record is
`dict(zip(headers, values))`, and zipping truncates to the shorter of the
two lists (with distinct headers the record is exactly the zip, of length
`min`); duplicate header names collapse into a single field — record keys
are always distinct — whose value is the last zipped one (lookup in the
dict equals lookup in the reversed pair list). -/
theorem c10_zip_truncation :
    (∀ t, (parse_text_to_json t).isSome = true) ∧
    (∀ headers values : List (List Char), headers.Nodup →
      pyDict (headers.zip values) = headers.zip values ∧
      (pyDict (headers.zip values)).length =
        min headers.length values.length) ∧
    (∀ (l : List (List Char × List Char)) (k : List Char),
      lookupKey k (pyDict l) = lookupKey k l.reverse) ∧
    (∀ l : List (List Char × List Char),
      ((pyDict l).map Prod.fst).Nodup) := by
  refine ⟨?_, ?_, fun l k => lookupKey_pyDict k l, nodup_keys_pyDict⟩
  · intro t
    unfold parse_text_to_json
    match h : splitChar '\n' (pyStrip t) with
    | [] => exact absurd h (splitChar_ne_nil '\n' (pyStrip t))
    | l0 :: rest => rfl
  · intro headers values hnd
    have hself : pyDict (headers.zip values) = headers.zip values :=
      pyDict_eq_self _
        (List.Nodup.sublist (map_fst_zip_sublist headers values) hnd)
    refine ⟨hself, ?_⟩
    rw [hself, List.length_zip]

/-- Witness for C10: distinct two-field header zipped against a single
value truncates to one field. -/
theorem c10_zip_truncation_witness :
    pyDict ([str "a", str "b"].zip [str "1"]) =
      [str "a", str "b"].zip [str "1"] ∧
    (pyDict ([str "a", str "b"].zip [str "1"])).length =
      min [str "a", str "b"].length [str "1"].length :=
  c10_zip_truncation.2.1 [str "a", str "b"] [str "1"] (by decide)

theorem headerLine_eq (url : List Char) :
    headerLine url = 'F' :: (str "iltered prefixes @ " ++ url ++
      str " | ASN | AS-NAME | AS Rank | Source | Country | PeeringDB link") := by
  unfold headerLine
  have h : str "Filtered prefixes @ " = 'F' :: str "iltered prefixes @ " := rfl
  rw [h]
  simp

theorem newline_not_mem_headerLine (url : List Char) (hu : '\n' ∉ url) :
    '\n' ∉ headerLine url := by
  unfold headerLine
  intro hmem
  rcases List.mem_append.mp hmem with hm | hm
  · rcases List.mem_append.mp hm with hm2 | hm2
    · exact absurd hm2 (by decide)
    · exact hu hm2
  · exact absurd hm (by decide)

theorem splitChar_headerLine (url : List Char) (hu : '|' ∉ url) :
    splitChar '|' (headerLine url) =
      (str "Filtered prefixes @ " ++ url ++ str " ") ::
        [str " ASN ", str " AS-NAME ", str " AS Rank ", str " Source ",
         str " Country ", str " PeeringDB link"] := by
  have hsuffix : splitChar '|'
      (str " | ASN | AS-NAME | AS Rank | Source | Country | PeeringDB link") =
      str " " :: [str " ASN ", str " AS-NAME ", str " AS Rank ",
        str " Source ", str " Country ", str " PeeringDB link"] := by decide
  have ha : '|' ∉ str "Filtered prefixes @ " ++ url := by
    intro hm
    rcases List.mem_append.mp hm with hm2 | hm2
    · exact absurd hm2 (by decide)
    · exact hu hm2
  have hmain := splitChar_append_left '|'
    (str "Filtered prefixes @ " ++ url) _ ha _ _ hsuffix
  unfold headerLine
  exact hmain

theorem headerTokens_eq (url : List Char) (hu : '|' ∉ url) :
    (splitChar '|' (headerLine url)).map pyStrip =
      pyStrip (str "Filtered prefixes @ " ++ url ++ str " ") ::
        [str "ASN", str "AS-NAME", str "AS Rank", str "Source",
         str "Country", str "PeeringDB link"] := by
  rw [splitChar_headerLine url hu, List.map_cons]
  congr 1

theorem pyStrip_token0 (url : List Char) :
    ∃ t, pyStrip (str "Filtered prefixes @ " ++ url ++ str " ") =
      'F' :: t := by
  have h : str "Filtered prefixes @ " ++ url ++ str " " =
      'F' :: (str "iltered prefixes @ " ++ url ++ str " ") := by
    have h2 : str "Filtered prefixes @ " = 'F' :: str "iltered prefixes @ " :=
      rfl
    rw [h2]
    simp
  rw [h, pyStrip_head 'F' _ (by decide)]
  exact ⟨_, rfl⟩

theorem headerTokens_nodup (url : List Char) (hu : '|' ∉ url) :
    ((splitChar '|' (headerLine url)).map pyStrip).Nodup := by
  rw [headerTokens_eq url hu]
  obtain ⟨t, ht⟩ := pyStrip_token0 url
  rw [ht]
  refine List.nodup_cons.mpr ⟨?_, by decide⟩
  intro hmem
  have hh : ∀ s : List Char, 'F' :: t = s → s.head? = some 'F' :=
    fun s hs => by rw [← hs]; rfl
  simp only [List.mem_cons, List.not_mem_nil, or_false] at hmem
  rcases hmem with hc | hc | hc | hc | hc | hc <;>
    exact absurd (hh _ hc) (by decide)

theorem headerTokens_length (url : List Char) (hu : '|' ∉ url) :
    ((splitChar '|' (headerLine url)).map pyStrip).length = 7 := by
  rw [headerTokens_eq url hu]
  rfl

theorem record_keys (url ln : List Char) (hu : '|' ∉ url)
    (hln : 6 ≤ ln.count '|') :
    (pyDict (((splitChar '|' (headerLine url)).map pyStrip).zip
        ((splitChar '|' ln).map pyStrip))).map Prod.fst =
      (splitChar '|' (headerLine url)).map pyStrip := by
  have hnd := headerTokens_nodup url hu
  have hzip := pyDict_eq_self
    (((splitChar '|' (headerLine url)).map pyStrip).zip
      ((splitChar '|' ln).map pyStrip))
    (List.Nodup.sublist (map_fst_zip_sublist _ _) hnd)
  rw [hzip]
  apply List.map_fst_zip
  have h1 : ((splitChar '|' (headerLine url)).map pyStrip).length = 7 :=
    headerTokens_length url hu
  have h2 : ((splitChar '|' ln).map pyStrip).length = ln.count '|' + 1 := by
    rw [List.length_map, splitChar_length]
  omega

/-- C7: parsing a rendered report yields exactly one record per data row,
and every record's field names are exactly the header line's
delimiter-split, whitespace-stripped tokens — provided the exchange URL
contains no delimiter or newline and every rendered row contains no
newline and at least the header's six delimiters (which holds of every
row the formatter emits for delimiter-free field values). -/
theorem c7_roundtrip (url : List Char) (rows : List (List Char))
    (hu1 : '\n' ∉ url) (hu2 : '|' ∉ url)
    (hr : ∀ r ∈ rows, '\n' ∉ r ∧ 6 ≤ r.count '|') :
    ∃ recs, parse_text_to_json (renderReport url rows) = some recs ∧
      recs.length = rows.length ∧
      ∀ rec ∈ recs, rec.map Prod.fst =
        (splitChar '|' (headerLine url)).map pyStrip := by
  have hnl := newline_not_mem_headerLine url hu1
  rcases List.eq_nil_or_concat rows with rfl | ⟨rs, z, hcat⟩
  · have htext : renderReport url [] = headerLine url := rfl
    rw [htext]
    have hds : (headerLine url).dropWhile pySpace = headerLine url := by
      rw [headerLine_eq url]
      exact dropWhile_cons_nonspace 'F' _ (by decide)
    have hsr : stripRight (headerLine url) = headerLine url := by
      unfold headerLine
      rw [stripRight_append _ _ ⟨'A', by decide, by decide⟩]
      have hconc : stripRight (str " | ASN | AS-NAME | AS Rank | Source | Country | PeeringDB link") =
          str " | ASN | AS-NAME | AS Rank | Source | Country | PeeringDB link" := by
        decide
      rw [hconc]
    have hstrip : pyStrip (headerLine url) = headerLine url := by
      unfold pyStrip
      rw [hds, hsr]
    unfold parse_text_to_json
    rw [hstrip, splitChar_no_c '\n' _ hnl]
    exact ⟨[], rfl, rfl, by intro rec h; simp at h⟩
  · rw [List.concat_eq_append] at hcat
    subst hcat
    have hz := hr z (by simp)
    have hpz : '|' ∈ z := by
      have hpos : 0 < z.count '|' := by omega
      exact List.count_pos_iff.mp hpos
    have hzn : ∃ x ∈ z, pySpace x = false := ⟨'|', hpz, by decide⟩
    have htext : renderReport url (rs ++ [z]) =
        joinLines (headerLine url :: rs) ++ '\n' :: z := by
      unfold renderReport
      rw [show headerLine url :: (rs ++ [z]) =
        (headerLine url :: rs) ++ [z] by simp]
      exact joinLines_append_last _ z (by simp)
    have hhead : ∃ t, joinLines (headerLine url :: rs) = 'F' :: t := by
      rw [headerLine_eq url]
      cases rs with
      | nil => exact ⟨_, rfl⟩
      | cons r rrest => exact ⟨_, rfl⟩
    have hstriptext : pyStrip (renderReport url (rs ++ [z])) =
        joinLines (headerLine url :: (rs ++ [stripRight z])) := by
      rw [htext]
      obtain ⟨t, ht⟩ := hhead
      unfold pyStrip
      have hdrop : (joinLines (headerLine url :: rs) ++
          '\n' :: z).dropWhile pySpace =
          joinLines (headerLine url :: rs) ++ '\n' :: z := by
        rw [ht, List.cons_append]
        exact dropWhile_cons_nonspace 'F' _ (by decide)
      have hsr2 : stripRight (joinLines (headerLine url :: rs) ++
          '\n' :: z) =
          joinLines (headerLine url :: rs) ++ '\n' :: stripRight z := by
        have h1 : joinLines (headerLine url :: rs) ++ '\n' :: z =
            (joinLines (headerLine url :: rs) ++ ['\n']) ++ z := by simp
        rw [h1, stripRight_append _ z hzn]
        simp
      rw [hdrop, hsr2]
      rw [show headerLine url :: (rs ++ [stripRight z]) =
        (headerLine url :: rs) ++ [stripRight z] by simp]
      exact (joinLines_append_last _ _ (by simp)).symm
    have hlines : splitChar '\n' (pyStrip (renderReport url (rs ++ [z]))) =
        headerLine url :: (rs ++ [stripRight z]) := by
      rw [hstriptext]
      apply splitChar_joinLines _ _ hnl
      intro r hrm
      rcases List.mem_append.mp hrm with hm | hm
      · exact (hr r (List.mem_append_left _ hm)).1
      · rw [List.mem_singleton] at hm
        subst hm
        intro hc
        exact hz.1 (mem_stripRight '\n' z hc)
    unfold parse_text_to_json
    rw [hlines]
    refine ⟨_, rfl, ?_, ?_⟩
    · simp
    · intro rec hrec
      rw [List.mem_map] at hrec
      obtain ⟨ln, hln, rfl⟩ := hrec
      apply record_keys url ln hu2
      rcases List.mem_append.mp hln with hm | hm
      · exact (hr ln (List.mem_append_left _ hm)).2
      · rw [List.mem_singleton] at hm
        subst hm
        rw [count_stripRight '|' z (by decide)]
        exact hz.2

/-- Witness for C7: a one-row report for a short URL parses back into one
record carrying the header's field names. -/
theorem c7_roundtrip_witness :
    ∃ recs, parse_text_to_json
        (renderReport (str "u") [str "5 | 100 | n | 7 | s | NL | x"]) =
        some recs ∧
      recs.length = 1 ∧
      ∀ rec ∈ recs, rec.map Prod.fst =
        (splitChar '|' (headerLine (str "u"))).map pyStrip :=
  c7_roundtrip (str "u") [str "5 | 100 | n | 7 | s | NL | x"]
    (by decide) (by decide) (by decide)

/-- The exception class retried by `RetryMeta` (lines 31-37):
`backoff.on_exception(..., requests.exceptions.RequestException, ...)`
catches exactly `requests` request exceptions; aiohttp client errors and
everything else pass through. -/
def isRetryable : PyErr → Bool
  | .requestException => true
  | _ => false

/-- The retry loop of `backoff.on_exception(backoff.expo, ...,
max_tries=5)`: `op n` is the outcome of attempt `n`; `fuel` is the number
of tries left.  A retryable failure with tries remaining backs off and
retries; anything else returns.  The result is paired with the number of
attempts performed (the timing of the exponential backoff is not
modelled). -/
def retryRun {α : Type} (op : Nat → Except PyErr α) :
    Nat → Nat → Except PyErr α × Nat
  | attempt, 0 => (.error .requestException, attempt)
  | attempt, fuel + 1 =>
    match op attempt with
    | .ok a => (.ok a, attempt + 1)
    | .error e =>
      if isRetryable e = true ∧ fuel ≠ 0 then retryRun op (attempt + 1) fuel
      else (.error e, attempt + 1)

/-- A method as wrapped by `RetryMeta.__new__` (lines 31-37):
up to 5 tries, retrying `requests.exceptions.RequestException` only. -/
def retryMeta {α : Type} (op : Nat → Except PyErr α) :
    Except PyErr α × Nat :=
  retryRun op 0 5

/-- One fetch outcome for the route-server listing: a transport failure,
or an HTTP response with status and the `routeservers` ids. -/
inductive FetchOutcome where
  | netFail
  | http (status : Nat) (ids : List Nat)
deriving DecidableEq

/-- `alice_rs` (lines 234-255), single attempt: the HTTP call goes through
`aiohttp.ClientSession`, so a transport failure surfaces as an aiohttp
client error — not `requests.exceptions.RequestException`; a 200 response
yields the id list; any other status exits. -/
def alice_rs (fetch : FetchOutcome) : Except PyErr (List Nat) :=
  match fetch with
  | .netFail => .error .aiohttpClientError
  | .http status ids =>
    if status = 200 then .ok ids else .error (.sysExit 1)

/-- The `RetryMeta`-wrapped route-server enumerator: attempt `n` sees the
n-th fetch outcome. -/
def alice_rs_retried (fetches : Nat → FetchOutcome) :
    Except PyErr (List Nat) × Nat :=
  retryMeta (fun n => alice_rs (fetches n))

/-- C9 counterexample: the route-server enumerator's transient
network-level failures are aiohttp client errors, which the blanket
`requests.exceptions.RequestException` retry does not catch — a transport
failure propagates after a single attempt, not up to five. -/
theorem c9_counterexample :
    alice_rs_retried (fun _ => .netFail) =
      (.error .aiohttpClientError, 1) := rfl

theorem retryRun_succ {α : Type} (op : Nat → Except PyErr α)
    (attempt fuel : Nat) :
    retryRun op attempt (fuel + 1) =
      match op attempt with
      | .ok a => (.ok a, attempt + 1)
      | .error e =>
        if isRetryable e = true ∧ fuel ≠ 0 then
          retryRun op (attempt + 1) fuel
        else (.error e, attempt + 1) := by
  simp only [retryRun]

theorem retryRun_ok {α : Type} (op : Nat → Except PyErr α) (a : α)
    (attempt fuel : Nat) (h : op attempt = .ok a) :
    retryRun op attempt (fuel + 1) = (.ok a, attempt + 1) := by
  rw [retryRun_succ, h]

theorem retryRun_nonretry {α : Type} (op : Nat → Except PyErr α)
    (e : PyErr) (attempt fuel : Nat) (h : op attempt = .error e)
    (he : isRetryable e = false) :
    retryRun op attempt (fuel + 1) = (.error e, attempt + 1) := by
  rw [retryRun_succ, h]
  have hcond : ¬(isRetryable e = true ∧ fuel ≠ 0) := by
    rintro ⟨hc, _⟩
    rw [he] at hc
    exact Bool.noConfusion hc
  show (if isRetryable e = true ∧ fuel ≠ 0 then
      retryRun op (attempt + 1) fuel
    else (Except.error e, attempt + 1)) = (Except.error e, attempt + 1)
  rw [if_neg hcond]

theorem retryRun_step {α : Type} (op : Nat → Except PyErr α) (e : PyErr)
    (attempt fuel : Nat) (h : op attempt = .error e)
    (he : isRetryable e = true) (hf : fuel ≠ 0) :
    retryRun op attempt (fuel + 1) = retryRun op (attempt + 1) fuel := by
  rw [retryRun_succ, h]
  show (if isRetryable e = true ∧ fuel ≠ 0 then
      retryRun op (attempt + 1) fuel
    else (Except.error e, attempt + 1)) = retryRun op (attempt + 1) fuel
  rw [if_pos ⟨he, hf⟩]

theorem retryRun_exhaust {α : Type} (op : Nat → Except PyErr α) :
    ∀ (fuel attempt : Nat), fuel ≠ 0 →
    (∀ j < fuel, op (attempt + j) = .error .requestException) →
    retryRun op attempt fuel = (.error .requestException, attempt + fuel) := by
  intro fuel
  induction fuel with
  | zero => intro attempt h; exact absurd rfl h
  | succ f ih =>
    intro attempt _ hall
    by_cases hf : f = 0
    · subst hf
      have h0 : op attempt = .error .requestException := by
        have := hall 0 (by omega)
        simpa using this
      rw [retryRun_succ, h0]
      have hcond : ¬(isRetryable PyErr.requestException = true ∧
          (0 : Nat) ≠ 0) := by
        rintro ⟨_, hc⟩
        exact hc rfl
      show (if isRetryable PyErr.requestException = true ∧ (0 : Nat) ≠ 0 then
          retryRun op (attempt + 1) 0
        else (Except.error PyErr.requestException, attempt + 1)) =
        (Except.error PyErr.requestException, attempt + (0 + 1))
      rw [if_neg hcond]
    · have h0 : op attempt = .error .requestException := by
        have := hall 0 (by omega)
        simpa using this
      rw [retryRun_step op _ attempt f h0 rfl hf, ih attempt.succ hf]
      · congr 1
        omega
      · intro j hj
        have := hall (j + 1) (by omega)
        rw [show attempt + 1 + j = attempt + (j + 1) by omega]
        exact this

theorem retryRun_success {α : Type} (op : Nat → Except PyErr α) (a : α) :
    ∀ (k fuel attempt : Nat),
    (∀ j < k, op (attempt + j) = .error .requestException) →
    k < fuel → op (attempt + k) = .ok a →
    retryRun op attempt fuel = (.ok a, attempt + k + 1) := by
  intro k
  induction k with
  | zero =>
    intro fuel attempt hfail hk hok
    obtain ⟨f, rfl⟩ : ∃ f, fuel = f + 1 := ⟨fuel - 1, by omega⟩
    have h0 : op attempt = .ok a := by simpa using hok
    rw [retryRun_ok op a attempt f h0]
  | succ k ih =>
    intro fuel attempt hfail hk hok
    obtain ⟨f, rfl⟩ : ∃ f, fuel = f + 1 := ⟨fuel - 1, by omega⟩
    have h0 : op attempt = .error .requestException := by
      have := hfail 0 (by omega)
      simpa using this
    have hf : f ≠ 0 := by omega
    rw [retryRun_step op _ attempt f h0 rfl hf]
    have hfail2 : ∀ j < k, op (attempt + 1 + j) = .error .requestException := by
      intro j hj
      have h2 := hfail (j + 1) (by omega)
      rw [show attempt + 1 + j = attempt + (j + 1) by omega]
      exact h2
    have hok2 : op (attempt + 1 + k) = .ok a := by
      rw [show attempt + 1 + k = attempt + (k + 1) by omega]
      exact hok
    rw [ih f (attempt + 1) hfail2 (by omega) hok2]
    congr 1
    omega

/-- C9 amended: every `RetryMeta`-wrapped method retries only
`requests.exceptions.RequestException` — the transient network failure of
the `requests`-based operations — up to 5 attempts before the failure
propagates: success after k < 5 retryable failures returns after k+1
attempts, a persistent retryable failure propagates after exactly 5
attempts, and any other exception (in particular the aiohttp client
error that a transient network failure of the route-server enumerator
raises) propagates after the first attempt, unretried. -/
theorem c9_amended {α : Type} (op : Nat → Except PyErr α) :
    (∀ (a : α) (k : Nat), (∀ j < k, op j = .error .requestException) →
      k < 5 → op k = .ok a → retryMeta op = (.ok a, k + 1)) ∧
    ((∀ j < 5, op j = .error .requestException) →
      retryMeta op = (.error .requestException, 5)) ∧
    (∀ e, isRetryable e = false → op 0 = .error e →
      retryMeta op = (.error e, 1)) := by
  refine ⟨?_, ?_, ?_⟩
  · intro a k hfail hk hok
    unfold retryMeta
    have hfail0 : ∀ j < k, op (0 + j) = .error .requestException := by
      intro j hj
      simpa using hfail j hj
    have hok0 : op (0 + k) = .ok a := by simpa using hok
    have hres := retryRun_success op a k 5 0 hfail0 hk hok0
    simpa using hres
  · intro hfail
    unfold retryMeta
    have hfail0 : ∀ j < 5, op (0 + j) = .error .requestException := by
      intro j hj
      simpa using hfail j hj
    have hres := retryRun_exhaust op 5 0 (by omega) hfail0
    simpa using hres
  · intro e he h0
    unfold retryMeta
    exact retryRun_nonretry op e 0 4 h0 he

/-- Witness for C9 amended: success on the second attempt after one
requests-level failure; exhaustion after five persistent requests-level
failures; an aiohttp client error propagating on attempt one. -/
theorem c9_amended_witness :
    retryMeta (fun n => if n = 0 then (.error .requestException :
        Except PyErr Nat) else .ok 7) = (.ok 7, 2) ∧
    retryMeta (fun _ => (.error .requestException : Except PyErr Nat)) =
      (.error .requestException, 5) ∧
    retryMeta (fun _ => (.error .aiohttpClientError : Except PyErr Nat)) =
      (.error .aiohttpClientError, 1) :=
  ⟨(c9_amended _).1 7 1
      (by intro j hj
          have hj0 : j = 0 := by omega
          subst hj0
          rfl)
      (by omega) rfl,
   (c9_amended _).2.1 (by intro j hj; rfl),
   (c9_amended _).2.2 .aiohttpClientError rfl rfl⟩

end PGossip
